import Mathlib

/-!
Verification development for the strain_ahsp repository.

Shallow embedding conventions:
* `u64` hash values are embedded as `Nat`; the only arithmetic performed on
  hashes in the source is comparison and integer division by the scaling
  factor, so no wrap-around modelling is needed.  `u64::MAX` is the constant
  `U64MAX = 2^64 - 1`.
* `f64` quantities (similarities, weights, qualities, abundances) are embedded
  as `ℚ`; the source performs only field operations and comparisons on them
  in the fragments under study.  The natural logarithm used by the MCMC
  likelihood is abstracted as an explicit function parameter `log : ℚ → ℚ`.
* Rust `Vec<u64>` becomes `List Nat`; `sort_unstable` / `BinaryHeap::into_sorted_vec`
  become `List.insertionSort (· ≤ ·)` (any sorting of a list of naturals yields
  the same list: the sorted permutation is unique).  `Vec::dedup` (removal of
  consecutive duplicates) is applied in the source only to sorted vectors,
  where it coincides with `List.dedup` (both produce the unique sorted
  duplicate-free list with the same members).
* `Option<f64>` becomes `Option ℚ`, `Result` becomes `Except`.
-/

namespace StrainAhsp

/-- The constant `u64::MAX`. -/
def U64MAX : Nat := 18446744073709551615

/-! ### `src/sketch/signature.rs`: `Signature` (the sketch container) -/

/-- Embeds `struct Signature` from `src/sketch/signature.rs` (fields
`algorithm`, `hashes`, `num_hashes`, `scaled`). -/
structure Signature where
  algorithm : String
  hashes : List Nat
  numHashes : Nat
  scaled : Nat
deriving DecidableEq, Repr

/-- Embeds `Signature::is_empty`. -/
def Signature.isEmptySig (s : Signature) : Bool := s.hashes.isEmpty

/-- The part of `Signature::estimate_jaccard` after the compatibility checks
(src/sketch/signature.rs lines 115-161): the empty-sketch special cases, the
intersection count (`self` side deduplicated through a `HashSet`, `other`
side iterated with multiplicity), then the scaled or bottom-k estimate. -/
def Signature.estimateJaccardBody (s o : Signature) : Option ℚ :=
  if s.isEmptySig ∨ o.isEmptySig then
    if s.isEmptySig ∧ o.isEmptySig ∧ s.algorithm = o.algorithm ∧
        s.scaled = o.scaled ∧ s.numHashes = o.numHashes then
      some 1
    else
      some 0
  else
    let interSize : Nat := (o.hashes.filter (fun h => h ∈ s.hashes)).length
    if 0 < s.scaled then
      let unionSize : Nat := s.hashes.length + o.hashes.length - interSize
      if unionSize = 0 then some 1
      else some ((interSize : ℚ) / (unionSize : ℚ))
    else if 0 < s.numHashes then
      let minNum : Nat := min s.numHashes o.numHashes
      if minNum = 0 then none
      else some ((interSize : ℚ) / (minNum : ℚ))
    else none

/-- Embeds `Signature::estimate_jaccard` (src/sketch/signature.rs lines
87-161): the compatibility checks (matching algorithm; matching scaling for
scaled sketches; both `num_hashes` positive for bottom-k; both degenerate when
both parameters are zero), then `estimateJaccardBody`. -/
def Signature.estimateJaccard (s o : Signature) : Option ℚ :=
  if s.algorithm ≠ o.algorithm then none
  else if 0 < s.scaled then
    if s.scaled ≠ o.scaled then none
    else Signature.estimateJaccardBody s o
  else if 0 < s.numHashes then
    if o.numHashes = 0 then none
    else Signature.estimateJaccardBody s o
  else
    if 0 < o.numHashes ∨ 0 < o.scaled then none
    else Signature.estimateJaccardBody s o

/-! ### `KmerSignature` -/

/-- Embeds `struct KmerSignature` (sketch plus k-mer size and molecule type;
the optional name/filename/path metadata plays no role in the claims). -/
structure KmerSignature where
  sketch : Signature
  kmerSize : Nat
  moleculeType : String
deriving DecidableEq, Repr

/-- Embeds `KmerSignature::jaccard_similarity`: k-mer sizes must match,
then delegates to `Signature::estimate_jaccard`.  (The molecule-type check
is commented out in the source.) -/
def KmerSignature.jaccardSimilarity (s o : KmerSignature) : Option ℚ :=
  if s.kmerSize ≠ o.kmerSize then none
  else s.sketch.estimateJaccard o.sketch

/-! ### `KmerSignature::add_sequence`, bottom-k branch (lines 290-327)

The hash stream produced by `NtHashIterator` over the sequence is modelled as
the list of its outputs, so `add_sequence` is embedded at the level of the
multiset of hashes it ingests.  The `BinaryHeap<u64>` max-heap is modelled by
the list of its contents: `push` is cons, `peek` yields the maximum, `pop`
removes one occurrence of the maximum, `into_sorted_vec` sorts ascending. -/

/-- One iteration of the bottom-k insertion loop: if the heap is not full the
hash is pushed; otherwise it replaces the maximum when strictly smaller (the
source comment notes that duplicates are deliberately allowed). -/
def heapStep (numHashes : Nat) (heap : List Nat) (h : Nat) : List Nat :=
  if heap.length < numHashes then h :: heap
  else if h < heap.foldr max 0 then h :: heap.erase (heap.foldr max 0)
  else heap

/-- Embeds the bottom-k branch of `KmerSignature::add_sequence`: the heap is
initialized from the previously stored hashes `cur`, each incoming hash is
processed by `heapStep`, and the result is stored sorted ascending. -/
def minhashAdd (numHashes : Nat) (cur hs : List Nat) : List Nat :=
  List.insertionSort (· ≤ ·) (hs.foldl (heapStep numHashes) cur)

/-! ### `KmerSignature::add_sequence`, scaled branch (lines 328-342) -/

/-- Embeds the scaled branch of `KmerSignature::add_sequence`: hashes below
`u64::MAX / scaled` are appended to the stored vector, which is then sorted
and deduplicated. -/
def scaledAdd (scaled : Nat) (cur hs : List Nat) : List Nat :=
  let threshold := U64MAX / scaled
  (List.insertionSort (· ≤ ·) (cur ++ hs.filter (fun h => h < threshold))).dedup

/-! ### `src/sketch/minhash.rs`: `MinHashSketcher::sketch_sequence` (lines 70-105)

The canonical k-mer hashes of the record are modelled as the input list; the
sketch keeps the `num_hashes` smallest distinct values: sort, dedup, take. -/

/-- Embeds the hash-selection step of `MinHashSketcher::sketch_sequence`. -/
def minhashSketchHashes (numHashes : Nat) (hs : List Nat) : List Nat :=
  ((List.insertionSort (· ≤ ·) hs).dedup).take numHashes

/-! ### `src/sketch/adaptive.rs`: `AdaptiveSketcher::sketch_sequence` (lines 58-99)

Unique hashes below the threshold are collected in a `HashSet` and stored
sorted; the stored vector is therefore the unique sorted duplicate-free
enumeration of that set. -/

/-- Embeds the hash-selection step of `AdaptiveSketcher::sketch_sequence`. -/
def adaptiveSketchHashes (scalingFactor : Nat) (hs : List Nat) : List Nat :=
  let threshold := U64MAX / scalingFactor
  (List.insertionSort (· ≤ ·) (hs.filter (fun h => h < threshold))).dedup

/-! ### `MultiResolutionSignature` and `weighted_similarity` (lines 486-551) -/

/-- Embeds `struct MultiResolutionSignature` from `src/sketch/signature.rs`. -/
structure MultiResolutionSignature where
  taxonId : String
  lineage : List String
  levels : List KmerSignature
deriving DecidableEq, Repr

/-- The per-level accumulation loop of `weighted_similarity`: a compatible
pair adds `w*sim` to the numerator and `w` to the total weight; an
incompatible pair still adds `w` to the total weight (source lines 529-539). -/
def wsimStep (acc : ℚ × ℚ) (p : (KmerSignature × KmerSignature) × ℚ) : ℚ × ℚ :=
  match p.1.1.jaccardSimilarity p.1.2 with
  | some sim => (acc.1 + p.2 * sim, acc.2 + p.2)
  | none => (acc.1, acc.2 + p.2)

/-- The accumulation loop of `weighted_similarity` followed by the
normalization: a zero total weight yields `some 0` (source lines 543-549),
otherwise the weighted sum divided by the total weight. -/
def MultiResolutionSignature.weightedSimilarityLoop
    (s o : MultiResolutionSignature) (w : List ℚ) : Option ℚ :=
  let acc := ((s.levels.zip o.levels).zip w).foldl wsimStep (0, 0)
  if acc.2 = 0 then some 0 else some (acc.1 / acc.2)

/-- Embeds `MultiResolutionSignature::weighted_similarity`: differing level
counts or empty levels give `none`; explicit weights must match the level
count; default weights are `1/L` each (the `num_levels == 0` early return
inside the default branch is dead code, the emptiness was already checked). -/
def MultiResolutionSignature.weightedSimilarity
    (s o : MultiResolutionSignature) (weights : Option (List ℚ)) : Option ℚ :=
  if s.levels.length ≠ o.levels.length ∨ s.levels.isEmpty then none
  else
    let numLevels := s.levels.length
    match weights with
    | some w =>
        if w.length ≠ numLevels then none
        else MultiResolutionSignature.weightedSimilarityLoop s o w
    | none =>
        if numLevels = 0 then some 1
        else MultiResolutionSignature.weightedSimilarityLoop s o
          (List.replicate numLevels ((1 : ℚ) / (numLevels : ℚ)))

/-! ### `src/adaptive/classifier.rs` -/

/-- Embeds `enum TaxonomicLevel`. -/
inductive TaxonomicLevel where
  | Domain | Phylum | Class | Order | Family | Genus
  | Species | StrainGroup | Strain | Unknown
deriving DecidableEq, Repr

/-- Embeds `TaxonomicLevel::parent`. -/
def TaxonomicLevel.parent : TaxonomicLevel → TaxonomicLevel
  | .Domain => .Unknown
  | .Phylum => .Domain
  | .Class => .Phylum
  | .Order => .Class
  | .Family => .Order
  | .Genus => .Family
  | .Species => .Genus
  | .StrainGroup => .Species
  | .Strain => .StrainGroup
  | .Unknown => .Unknown

/-- Embeds `TaxonomicLevel::lineage_index`. -/
def TaxonomicLevel.lineageIndex : TaxonomicLevel → Option Nat
  | .Domain => some 0
  | .Phylum => some 1
  | .Class => some 2
  | .Order => some 3
  | .Family => some 4
  | .Genus => some 5
  | .Species => some 6
  | .StrainGroup => some 7
  | .Strain => some 8
  | .Unknown => none

/-- Embeds `ConfidenceThresholds::default` as the lookup function of the
`HashMap<TaxonomicLevel, f64>` it builds (all nine named ranks present,
`Unknown` absent). -/
def defaultThresholds : TaxonomicLevel → Option ℚ
  | .Domain => some (19/20)
  | .Phylum => some (23/25)
  | .Class => some (9/10)
  | .Order => some (87/100)
  | .Family => some (17/20)
  | .Genus => some (4/5)
  | .Species => some (3/4)
  | .StrainGroup => some (7/10)
  | .Strain => some (13/20)
  | .Unknown => none

/-- The macro/meso/micro per-level similarity values computed for one
reference inside `find_best_match`.

Modelled from the spec: `find_best_match` reads `query.macro_signature`,
`query.meso_signature`, `query.micro_signature` and calls
`MultiResolutionSignature::similarity`, members that the
`MultiResolutionSignature` in `src/sketch/signature.rs` no longer has
(its comments say they were removed).  Per the spec (§4.4, §4.7 step 2)
these are per-level Jaccard estimates and the overall weighted similarity;
they enter the embedding as given rational inputs, one tuple per reference. -/
structure SimTriple where
  macroSim : ℚ
  mesoSim : ℚ
  microSim : ℚ
deriving DecidableEq, Repr

/-- The reference data `classify` reads: taxon id and lineage. -/
structure RefInfo where
  taxonId : String
  lineage : List String
deriving DecidableEq, Repr

/-- Embeds `struct Classification`; `similarityScores` is the
`best_similarities` map, which is either empty (`none`) or holds exactly the
Macro/Meso/Micro entries of the best reference. -/
structure Classification where
  taxonId : String
  lineage : List String
  level : TaxonomicLevel
  confidence : ℚ
  bestMatch : String
  similarityScores : Option SimTriple
deriving DecidableEq, Repr

/-- Embeds `enum ClassificationError`. -/
inductive ClassificationError where
  | NoReferences
  | InsufficientCoverage
deriving DecidableEq, Repr

/-- Embeds the loop of `find_best_match` (src/adaptive/classifier.rs lines
254-283): starting from index 0, overall similarity 0.0 and an empty
similarity map, a reference strictly improving the best overall similarity
replaces the current best and installs its three per-level scores. -/
def findBestMatch (refs : List RefInfo) (sims : List (SimTriple × ℚ)) :
    String × Nat × Option SimTriple :=
  let step := fun (acc : Nat × ℚ × Option SimTriple) (p : Nat × SimTriple × ℚ) =>
    if acc.2.1 < p.2.2 then (p.1, p.2.2, some p.2.1) else acc
  let r := sims.enum.foldl step (0, 0, none)
  ((refs.getD r.1 ⟨"", []⟩).taxonId, r.1, r.2.2)

/-- Embeds the fallback `while` loop of `classify` (lines 200-214): while the
current level is not `Domain` and the confidence is below the level's
threshold (0.75 when the level is missing from the map), move to the parent
level and add 0.05 to the confidence.  The parent chain from `Species`
reaches `Domain` in 6 steps, so the fuel of 9 used by `classify` is never
exhausted. -/
def fallbackLoop (thresholds : TaxonomicLevel → Option ℚ) :
    Nat → TaxonomicLevel → ℚ → TaxonomicLevel × ℚ
  | 0, lvl, conf => (lvl, conf)
  | fuel + 1, lvl, conf =>
      if lvl = .Domain then (lvl, conf)
      else
        let τ := (thresholds lvl).getD (3/4)
        if conf < τ then fallbackLoop thresholds fuel lvl.parent (conf + 1/20)
        else (lvl, conf)

/-- Embeds the lineage extraction of `classify` (lines 223-233): truncate the
reference lineage at the level's index when long enough, otherwise keep the
whole lineage; `Unknown` (no index) leaves the lineage empty. -/
def extractLineage (lineage : List String) (lvl : TaxonomicLevel) : List String :=
  match lvl.lineageIndex with
  | some idx => if idx < lineage.length then lineage.take (idx + 1) else lineage
  | none => []

/-- Builds the returned `Classification` (lines 222-246) from the selected
level and confidence. -/
def buildClassification (refs : List RefInfo) (bestId : String) (bestIdx : Nat)
    (bestSims : Option SimTriple) (lvl : TaxonomicLevel) (conf : ℚ) :
    Classification :=
  let reference := refs.getD bestIdx ⟨"", []⟩
  let resultLineage := extractLineage reference.lineage lvl
  { taxonId :=
      match resultLineage.getLast? with
      | some t => t
      | none => reference.taxonId
    lineage := resultLineage
    level := lvl
    confidence := conf
    bestMatch := bestId
    similarityScores := bestSims }

/-- Embeds `AdaptiveClassifier::classify` (lines 150-247).  The coverage
check compares `min_coverage` against the constant `1000` (the source's
placeholder `total_coverage`, with the comment that the query's k-mer total
is not available); then the threshold ladder Strain → StrainGroup → the
fallback loop from `Species`, reading the per-level scores with default 0.0
when the `best_similarities` map is empty.  The `references` vector is
non-empty by construction (`AdaptiveClassifier::new` rejects an empty one
with `NoReferences`), so the `getD` default is never read. -/
def classify (thresholds : TaxonomicLevel → Option ℚ) (minCoverage : Nat)
    (refs : List RefInfo) (sims : List (SimTriple × ℚ)) :
    Except ClassificationError Classification :=
  let totalCoverage : Nat := 1000
  if totalCoverage < minCoverage then .error .InsufficientCoverage
  else
    let best := findBestMatch refs sims
    let bestId := best.1
    let bestIdx := best.2.1
    let bestSims := best.2.2
    let microConf := (bestSims.map SimTriple.microSim).getD 0
    let strainThreshold := (thresholds .Strain).getD (13/20)
    if microConf < strainThreshold then
      let mesoConf := (bestSims.map SimTriple.mesoSim).getD 0
      let sgThreshold := (thresholds .StrainGroup).getD (7/10)
      if mesoConf < sgThreshold then
        let macroConf := (bestSims.map SimTriple.macroSim).getD 0
        let fb := fallbackLoop thresholds 9 .Species macroConf
        .ok (buildClassification refs bestId bestIdx bestSims fb.1 fb.2)
      else .ok (buildClassification refs bestId bestIdx bestSims .StrainGroup mesoConf)
    else .ok (buildClassification refs bestId bestIdx bestSims .Strain microConf)

/-! ### `src/stats/deconvolution.rs`: `StrainMixtureModel` -/

/-- Embeds `mcmc_burnin = iterations / 5` (src/stats/deconvolution.rs line 101). -/
def mcmcBurnin (iterations : Nat) : Nat := iterations / 5

/-- Embeds `mcmc_thin = 10` (line 102). -/
def mcmcThin : Nat := 10

/-- Row-times-vector product used by `signatures.dot(abundances)`. -/
def dotRow (row x : List ℚ) : ℚ := ((row.zip x).map fun p => p.1 * p.2).sum

/-- Embeds `expected = self.signatures.dot(abundances)` with `signatures` stored as
its list of feature rows. -/
def expectedProfile (sigs : List (List ℚ)) (x : List ℚ) : List ℚ :=
  sigs.map (fun row => dotRow row x)

/-- Embeds `calculate_likelihood` (lines 192-207): Poisson-style
log-likelihood `Σ_f (y_f·ln μ_f − μ_f)` over features with `μ_f > 0`.
The `f64::ln` is abstracted as the parameter `log`. -/
def calculateLikelihood (log : ℚ → ℚ) (sigs : List (List ℚ)) (y x : List ℚ) : ℚ :=
  ((y.zip (expectedProfile sigs x)).map fun p =>
    if 0 < p.2 then p.1 * log p.2 - p.2 else 0).sum

/-- Embeds the normalization of the observed vector (lines 121-126). -/
def normalizeObserved (y : List ℚ) : List ℚ :=
  let total := y.sum
  if 0 < total then y.map (fun v => v / total) else y

/-- Embeds the proposal of one MCMC iteration (lines 141-161): each
component is perturbed by the corresponding draw (`Uniform(-0.1,0.1)` in the
source; here a given stream value), floored at 0, and the vector is divided
by its sum when the sum is positive (left unchanged when the sum is 0). -/
def propose (pert : Nat → ℚ) (x : List ℚ) : List ℚ :=
  let p := x.enum.map fun q => let v := q.2 + pert q.1; if v < 0 then 0 else v
  let s := p.sum
  if 0 < s then p.map (fun v => v / s) else p

/-- Embeds one iteration of the Metropolis-Hastings loop (lines 139-183):
propose, compare log-likelihoods, accept when the ratio is positive or the
log of the uniform draw (shifted by 1e-10) is below it. -/
def mcmcStep (log : ℚ → ℚ) (sigs : List (List ℚ)) (y : List ℚ)
    (pert : Nat → ℚ) (u : ℚ) (x : List ℚ) : List ℚ :=
  let proposal := propose pert x
  let currentLikelihood := calculateLikelihood log sigs y x
  let proposalLikelihood := calculateLikelihood log sigs y proposal
  let logAcceptanceRatio := proposalLikelihood - currentLikelihood
  let randomLog := log (u + 1/10000000000)
  if 0 < logAcceptanceRatio ∨ randomLog < logAcceptanceRatio then proposal else x

/-- The state of the Metropolis-Hastings chain after `t` iterations of
`estimate_abundances`, starting from the uniform vector `(1/S, …, 1/S)`
(line 129); `pert t i` is the perturbation drawn for component `i` at
iteration `t` and `us t` the uniform draw of iteration `t`. -/
def mcmcChain (log : ℚ → ℚ) (sigs : List (List ℚ)) (y : List ℚ)
    (pert : Nat → Nat → ℚ) (us : Nat → ℚ) (nStrains : Nat) :
    Nat → List ℚ
  | 0 => List.replicate nStrains ((1 : ℚ) / (nStrains : ℚ))
  | t + 1 => mcmcStep log sigs y (pert t) (us t)
      (mcmcChain log sigs y pert us nStrains t)

/-- The iterations whose states `estimate_abundances` retains (line 178):
`iteration >= burnin && (iteration - burnin) % thin == 0`. -/
def retainedIterations (iterations : Nat) : List Nat :=
  (List.range iterations).filter fun t =>
    decide (mcmcBurnin iterations ≤ t) &&
      decide ((t - mcmcBurnin iterations) % mcmcThin = 0)

/-- The lower percentile index of `process_samples` (line 233):
`(0.025 * n_samples as f64) as usize`. -/
def lowerIdx (n : Nat) : Nat := Nat.floor ((1 / 40 : ℚ) * n)

/-- The upper percentile index of `process_samples` (line 234):
`(0.975 * n_samples as f64) as usize`. -/
def upperIdx (n : Nat) : Nat := Nat.floor ((39 / 40 : ℚ) * n)

/-- The credible-interval computation of `process_samples` (line 235) on the
sorted per-strain samples, with the panicking index operations embedded as
`Option`-valued lookups: `none` is the out-of-bounds panic. -/
def credibleInterval (sortedSamples : List ℚ) : Option ℚ :=
  let n := sortedSamples.length
  match sortedSamples.get? (upperIdx n), sortedSamples.get? (lowerIdx n) with
  | some up, some lo => some (up - lo)
  | _, _ => none

/-! ### `src/pipeline/qc.rs`: `FastqProcessor::apply_quality_control` -/

/-- Embeds `struct QualityControlParams`. -/
structure QualityControlParams where
  minAvgQuality : ℚ
  minLength : Nat
  trimQuality : Nat
  maxNPercent : ℚ
deriving DecidableEq, Repr

/-- Embeds `base == b'N' || base == b'n'` (bytes 78 and 110). -/
def isNBase (b : Nat) : Bool := b = 78 || b = 110

/-- Embeds `FastqProcessor::apply_quality_control` (src/pipeline/qc.rs lines
424-499) on a read given as byte lists: length check, N-content check, and —
when qualities are present — length match, average-quality check (Phred
offset 33 via saturating subtraction, which is `Nat` subtraction), the
forward scan for the first index with quality ≥ `trim_quality`, the backward
scan for the last such index, the trimmed-length checks, and the slice
`seq[trim_start..trim_end]`.  Without qualities the read passes unchanged. -/
def applyQualityControl (p : QualityControlParams) (seq : List Nat)
    (qual : Option (List Nat)) : Option (List Nat) :=
  if seq.length < p.minLength then none
  else
    let nCount := (seq.filter isNBase).length
    let nPercent : ℚ := 100 * (nCount : ℚ) / (seq.length : ℚ)
    if p.maxNPercent < nPercent then none
    else
      match qual with
      | some q =>
          if q.length ≠ seq.length then none
          else if q.isEmpty then none
          else
            let avgQuality : ℚ := ((q.map fun x => ((x - 33 : Nat) : ℚ)).sum) / (q.length : ℚ)
            if avgQuality < p.minAvgQuality then none
            else
              match q.findIdx? (fun x => p.trimQuality ≤ x - 33) with
              | none => none
              | some trimStart =>
                  match (List.range q.length).reverse.find? (fun i =>
                      decide (trimStart ≤ i) && decide (p.trimQuality ≤ q.getD i 0 - 33)) with
                  | none => none
                  | some lastIdx =>
                      let trimEnd := lastIdx + 1
                      if trimEnd ≤ trimStart ∨ trimEnd - trimStart < p.minLength then none
                      else some ((seq.drop trimStart).take (trimEnd - trimStart))
      | none => some seq

/-! ### Specification-side definitions used to state amended claims -/

/-- The `n` smallest elements of a list counted with multiplicity: the first
`n` entries of its ascending sort. -/
def minNSorted (n : Nat) (l : List Nat) : List Nat :=
  (List.insertionSort (· ≤ ·) l).take n

/-- Closed form of the fallback `while` loop of `classify` under the default
thresholds, starting at `Species` with confidence `m`: walking parent-ward
adds `1/20` per step, so the loop stops at the first rank of the chain
Species → Genus → Family → Order → Class → Phylum whose threshold the boosted
confidence meets — the bounds below are `τ(rank) − steps/20` — and otherwise
at `Domain` with `m + 6/20` (`Genus` and `Family` can never be the stopping
rank: their bounds coincide with the `Species` bound `3/4`). -/
def specFallback (m : ℚ) : TaxonomicLevel × ℚ :=
  if 3/4 ≤ m then (.Species, m)
  else if 18/25 ≤ m then (.Order, m + 3/20)
  else if 7/10 ≤ m then (.Class, m + 1/5)
  else if 67/100 ≤ m then (.Phylum, m + 1/4)
  else (.Domain, m + 3/10)

/-- `apply_quality_control` together with the trimmed quality slice that
corresponds to the trimmed read (the source returns only the sequence; the
quality slice `qual[trim_start..trim_end]` is what a second pass over the
trimmed read would receive).  The control flow is identical to
`applyQualityControl` with qualities present. -/
def applyQCWithQual (p : QualityControlParams) (seq q : List Nat) :
    Option (List Nat × List Nat) :=
  if seq.length < p.minLength then none
  else
    let nCount := (seq.filter isNBase).length
    let nPercent : ℚ := 100 * (nCount : ℚ) / (seq.length : ℚ)
    if p.maxNPercent < nPercent then none
    else if q.length ≠ seq.length then none
    else if q.isEmpty then none
    else
      let avgQuality : ℚ := ((q.map fun x => ((x - 33 : Nat) : ℚ)).sum) / (q.length : ℚ)
      if avgQuality < p.minAvgQuality then none
      else
        match q.findIdx? (fun x => p.trimQuality ≤ x - 33) with
        | none => none
        | some trimStart =>
            match (List.range q.length).reverse.find? (fun i =>
                decide (trimStart ≤ i) && decide (p.trimQuality ≤ q.getD i 0 - 33)) with
            | none => none
            | some lastIdx =>
                let trimEnd := lastIdx + 1
                if trimEnd ≤ trimStart ∨ trimEnd - trimStart < p.minLength then none
                else some ((seq.drop trimStart).take (trimEnd - trimStart),
                  (q.drop trimStart).take (trimEnd - trimStart))

/-! ## Theorems -/

/-- C1 (counterexample): the bottom-k branch of `KmerSignature::add_sequence`
stores duplicate hashes.  Ingesting the multiset `{5, 5}` into an empty
sketch of capacity 2 stores `[5, 5]`, not the single distinct value `[5]`
(= the `min(2, 1)` smallest distinct values) the claim requires, and the
stored vector contains a duplicate. -/
theorem minhashAdd_duplicates_cex :
    minhashAdd 2 [] [5, 5] = [5, 5] ∧ ¬ ([5, 5] : List Nat).Nodup ∧
      minhashAdd 2 [] [5, 5] ≠ [5] := by decide

/-- C2 (counterexample): in `weighted_similarity` an incompatible aligned
pair is not dropped.  Two 2-level signatures whose first levels are identical
(per-level Jaccard 1) and whose second levels have different k-mer sizes
(Jaccard undefined) yield overall similarity `1/2` under default weights:
the incompatible pair contributed its weight `1/2` to the denominator.  Had
the pair been dropped as the claim states, the result would be `1`. -/
theorem weightedSimilarity_incompatible_denominator_cex :
    MultiResolutionSignature.weightedSimilarity
        ⟨"a", [], [⟨⟨"minhash", [5], 1, 0⟩, 21, "DNA"⟩, ⟨⟨"minhash", [5], 1, 0⟩, 21, "DNA"⟩]⟩
        ⟨"b", [], [⟨⟨"minhash", [5], 1, 0⟩, 21, "DNA"⟩, ⟨⟨"minhash", [5], 1, 0⟩, 31, "DNA"⟩]⟩
        none = some (1/2) ∧ ((1 : ℚ)/2) ≠ 1 := by
  constructor
  · norm_num [MultiResolutionSignature.weightedSimilarity,
      MultiResolutionSignature.weightedSimilarityLoop, wsimStep,
      KmerSignature.jaccardSimilarity, Signature.estimateJaccard,
      Signature.estimateJaccardBody, Signature.isEmptySig, List.zip,
      List.zipWith, List.foldl, List.replicate]
  · norm_num

/-- C3 (counterexample): with per-level similarities macro `0.7`, meso `0`,
micro `0` (no rank meets its threshold: `0 < 0.65`, `0 < 0.70`,
`0.7 < 0.75 ≤ ⋯`) against a single reference with a seven-rank lineage, the
classifier returns level `Class` with confidence `0.9` (the macro similarity
plus four fallback boosts of `0.05`), not the claim's coarsest lineage rank
`Domain` with the best observed similarity `0.7` clamped to `[0, 0.95]`. -/
theorem classify_fallback_cex :
    classify defaultThresholds 100
        [⟨"E_coli", ["Bacteria", "Proteobacteria", "Gammaproteobacteria",
          "Enterobacterales", "Enterobacteriaceae", "Escherichia", "Escherichia coli"]⟩]
        [(⟨7/10, 0, 0⟩, 3/10)] =
      .ok ⟨"Gammaproteobacteria",
        ["Bacteria", "Proteobacteria", "Gammaproteobacteria"],
        .Class, 9/10, "E_coli", some ⟨7/10, 0, 0⟩⟩ ∧
      TaxonomicLevel.Class ≠ TaxonomicLevel.Domain ∧ ((9 : ℚ)/10) ≠ 7/10 := by
  refine ⟨?_, by decide, by norm_num⟩
  simp +decide only [classify, findBestMatch, fallbackLoop, defaultThresholds,
    buildClassification, extractLineage, TaxonomicLevel.parent,
    TaxonomicLevel.lineageIndex, List.enum, List.enumFrom, List.foldl]
  norm_num

/-- C4: `classify` compares `min_coverage` against the constant placeholder
`total_coverage = 1000` and never inspects the query, so with the default
`min_coverage = 100` no query — in particular one with zero sketched k-mers —
is rejected for insufficient coverage, while `min_coverage > 1000` rejects
every query. -/
theorem classify_coverage_placeholder :
    (∀ (refs : List RefInfo) (sims : List (SimTriple × ℚ)),
        classify defaultThresholds 100 refs sims ≠ .error .InsufficientCoverage) ∧
    (∀ (refs : List RefInfo) (sims : List (SimTriple × ℚ)),
        classify defaultThresholds 2000 refs sims = .error .InsufficientCoverage) := by
  constructor
  · intro refs sims
    unfold classify
    norm_num
    split_ifs <;> simp
  · intro refs sims
    unfold classify
    norm_num

/-- C5 (counterexample): `weighted_similarity` between a 1-level and a
2-level signature is `none` (undefined); levels are not aligned over the
minimum of the two level counts as the claim states. -/
theorem weightedSimilarity_level_count_cex :
    MultiResolutionSignature.weightedSimilarity
        ⟨"a", [], [⟨⟨"minhash", [5], 1, 0⟩, 21, "DNA"⟩]⟩
        ⟨"b", [], [⟨⟨"minhash", [5], 1, 0⟩, 21, "DNA"⟩, ⟨⟨"minhash", [5], 1, 0⟩, 21, "DNA"⟩]⟩
        none = none := by decide

/-- C5 (amended): `weighted_similarity` is undefined whenever the two
signatures have different numbers of levels, whatever the weights. -/
theorem weightedSimilarity_length_mismatch_none
    (a b : MultiResolutionSignature) (w : Option (List ℚ))
    (h : a.levels.length ≠ b.levels.length) :
    a.weightedSimilarity b w = none := by
  simp [MultiResolutionSignature.weightedSimilarity, h]

/-- Witness for `weightedSimilarity_length_mismatch_none`. -/
theorem weightedSimilarity_length_mismatch_none_witness :
    MultiResolutionSignature.weightedSimilarity ⟨"a", [], []⟩
      ⟨"b", [], [⟨⟨"minhash", [], 0, 0⟩, 3, "DNA"⟩]⟩ (some [1]) = none :=
  weightedSimilarity_length_mismatch_none _ _ _ (by decide)

/-- C8 (counterexample): two empty bottom-k sketches whose `num_hashes`
differ (5 and 7) are compatible for `estimate_jaccard` — the bottom-k branch
compares through `min(num_hashes)` — yet their estimate is `0`, not the `1`
the claim requires for two compatible empty sketches: the `J = 1` branch
additionally demands equal `num_hashes`. -/
theorem estimateJaccard_both_empty_cex :
    Signature.estimateJaccard ⟨"minhash", [], 5, 0⟩ ⟨"minhash", [], 7, 0⟩ = some 0 ∧
      some (0 : ℚ) ≠ some 1 := by decide

/-- C10: sample retention and percentile indexing in `estimate_abundances` /
`process_samples`.  For `mcmc_iterations ≥ 1` at least one sample is retained
(iteration `burn_in = iterations/5 < iterations` always is), and for `n ≥ 1`
retained samples the percentile indices `⌊0.025·n⌋` and `⌊0.975·n⌋` are
strictly below `n`, so the credible-interval lookups are in bounds.  With
`mcmc_iterations = 0` no sample is retained and the lookup on the empty
per-strain sample vector is out of bounds (the source panics there, given at
least one strain). -/
theorem mcmc_sample_index_bounds :
    (∀ T, 1 ≤ T → 0 < (retainedIterations T).length) ∧
    (∀ n, 1 ≤ n → lowerIdx n < n ∧ upperIdx n < n) ∧
    (∀ samples : List ℚ, samples ≠ [] → (credibleInterval samples).isSome = true) ∧
    retainedIterations 0 = [] ∧ credibleInterval ([] : List ℚ) = none := by
  have hup : ∀ n : Nat, 1 ≤ n → upperIdx n < n := by
    intro n hn
    have hn0 : (0 : ℚ) < n := by exact_mod_cast hn
    have : ((39 : ℚ) / 40) * n < n := by linarith
    exact (Nat.floor_lt (by positivity)).mpr (by linarith)
  have hlo : ∀ n : Nat, 1 ≤ n → lowerIdx n < n := by
    intro n hn
    have hn0 : (0 : ℚ) < n := by exact_mod_cast hn
    exact (Nat.floor_lt (by positivity)).mpr (by linarith)
  refine ⟨?_, fun n hn => ⟨hlo n hn, hup n hn⟩, ?_, rfl, rfl⟩
  · intro T hT
    have hmem : mcmcBurnin T ∈ retainedIterations T := by
      simp only [retainedIterations, List.mem_filter, List.mem_range]
      refine ⟨Nat.div_lt_self hT (by norm_num), ?_⟩
      simp [mcmcBurnin, mcmcThin]
    exact List.length_pos_of_mem hmem
  · intro samples hne
    have hlen : 1 ≤ samples.length := by
      have := List.length_pos.mpr hne
      omega
    have h1 := hup samples.length hlen
    have h2 := hlo samples.length hlen
    simp only [credibleInterval, List.get?_eq_get h1, List.get?_eq_get h2,
      Option.isSome_some]

/-- Witness for `mcmc_sample_index_bounds`. -/
theorem mcmc_sample_index_bounds_witness :
    0 < (retainedIterations 1).length ∧ upperIdx 40 < 40 ∧
      (credibleInterval [0, 1, 2]).isSome = true :=
  ⟨mcmc_sample_index_bounds.1 1 (by norm_num),
    (mcmc_sample_index_bounds.2.1 40 (by norm_num)).2,
    mcmc_sample_index_bounds.2.2.1 [0, 1, 2] (by simp)⟩

/-- Helper: a list of non-negative rationals summing to zero is all zeros. -/
theorem sum_zero_all_zero {l : List ℚ} (h : ∀ v ∈ l, 0 ≤ v) (hs : l.sum = 0) :
    ∀ v ∈ l, v = 0 := by
  induction l with
  | nil => simp
  | cons a t ih =>
      have ha : 0 ≤ a := h a (by simp)
      have ht : ∀ v ∈ t, 0 ≤ v := fun v hv => h v (by simp [hv])
      have hts : 0 ≤ t.sum := List.sum_nonneg ht
      have hsum : a + t.sum = 0 := by simpa using hs
      intro v hv
      rcases List.mem_cons.mp hv with rfl | hv
      · linarith
      · exact ih ht (by linarith) v hv

/-- Helper: the proposal of one MCMC iteration keeps the state length, keeps
all components non-negative, and either sums to exactly 1 (when the floored
vector has positive sum and is renormalized) or is the all-zero vector (when
every floored component is zero, so the renormalization is skipped). -/
theorem propose_invariant (pr : Nat → ℚ) (x : List ℚ) :
    (propose pr x).length = x.length ∧ (∀ v ∈ propose pr x, 0 ≤ v) ∧
      ((propose pr x).sum = 1 ∨ propose pr x = List.replicate x.length 0) := by
  unfold propose
  set p := x.enum.map (fun q => let v := q.2 + pr q.1; if v < 0 then 0 else v) with hp
  have hlen : p.length = x.length := by simp [hp, List.enum_length]
  have hnn : ∀ v ∈ p, 0 ≤ v := by
    intro v hv
    simp only [hp, List.mem_map] at hv
    rcases hv with ⟨q, _, rfl⟩
    split_ifs with hlt
    · exact le_refl 0
    · exact not_lt.mp hlt
  by_cases hs : 0 < p.sum
  · simp only [if_pos hs]
    refine ⟨by simp [hlen], ?_, Or.inl ?_⟩
    · intro v hv
      simp only [List.mem_map] at hv
      rcases hv with ⟨w, hw, rfl⟩
      exact div_nonneg (hnn w hw) (le_of_lt hs)
    · have hmap : (p.map fun v => v / p.sum).sum = p.sum * (p.sum)⁻¹ := by
        simp only [div_eq_mul_inv]
        rw [show (fun v => v * (p.sum)⁻¹) = (fun v => id v * (p.sum)⁻¹) from rfl,
          List.sum_map_mul_right, List.map_id]
      rw [hmap, mul_inv_cancel₀ (ne_of_gt hs)]
  · simp only [if_neg hs]
    have h0 : p.sum = 0 := le_antisymm (not_lt.mp hs) (List.sum_nonneg hnn)
    exact ⟨hlen, hnn, Or.inr (List.eq_replicate_iff.mpr
      ⟨hlen, fun b hb => sum_zero_all_zero hnn h0 b hb⟩)⟩

/-- C7 (counterexample): an accepted Metropolis-Hastings state that is not on
the simplex.  With 11 strains, observed vector `[1]`, a `1 × 11` signature
matrix of ones, and first-iteration perturbations all equal to
`-19/200 = -0.095 ∈ (-0.1, 0.1)`, every floored proposal component is
`1/11 - 0.095 < 0 ↦ 0`, the sum guard `sum > 0` fails so no renormalization
happens, and the zero proposal is accepted (`Δ = 0 - (-1) > 0`, independent
of the uniform draw).  The log function enters the run only as `ln 1`, and
the stub `fun _ => 0` agrees with the real logarithm there.  The accepted
state sums to 0, which misses 1 by far more than the claimed `1e-9`
tolerance. -/
theorem mcmc_accepted_zero_cex :
    mcmcChain (fun _ => 0) [List.replicate 11 1] (normalizeObserved [1])
        (fun _ _ => -19/200) (fun _ => 1/2) 11 1 = List.replicate 11 0 ∧
      (List.replicate 11 (0 : ℚ)).sum = 0 ∧
      (1 : ℚ) - (List.replicate 11 (0 : ℚ)).sum > 1/1000000000 := by
  refine ⟨?_, by simp, by simp; norm_num⟩
  norm_num [mcmcChain, mcmcStep, propose, calculateLikelihood, expectedProfile,
    dotRow, normalizeObserved, List.replicate, List.enum, List.enumFrom, List.zip,
    List.zipWith, List.foldl, List.map]

/-- C7 (amended): every state of the Metropolis-Hastings chain — hence every
accepted state — has length `n_strains`, all components non-negative, and
either sums to exactly 1 or is the all-zero vector; the all-zero escape
happens exactly when every component of a proposal is floored to 0, in which
case the `sum > 0` renormalization guard is skipped and the zero vector can
be accepted.  This holds for every signature matrix, observed vector,
perturbation stream, uniform stream and log function. -/
theorem mcmc_state_invariant (log : ℚ → ℚ) (sigs : List (List ℚ)) (y : List ℚ)
    (pert : Nat → Nat → ℚ) (us : Nat → ℚ) (S t : Nat) (hS : 1 ≤ S) :
    (mcmcChain log sigs y pert us S t).length = S ∧
      (∀ v ∈ mcmcChain log sigs y pert us S t, 0 ≤ v) ∧
      ((mcmcChain log sigs y pert us S t).sum = 1 ∨
        mcmcChain log sigs y pert us S t = List.replicate S 0) := by
  have hS0 : (0 : ℚ) < (S : ℚ) := by exact_mod_cast hS
  induction t with
  | zero =>
      refine ⟨by simp [mcmcChain], ?_, Or.inl ?_⟩
      · intro v hv
        simp only [mcmcChain, List.mem_replicate] at hv
        rcases hv with ⟨_, rfl⟩
        positivity
      · simp only [mcmcChain, List.sum_replicate, nsmul_eq_mul]
        field_simp
  | succ t ih =>
      rcases ih with ⟨ihl, ihn, ihs⟩
      simp only [mcmcChain, mcmcStep]
      split_ifs
      · have hp := propose_invariant (pert t) (mcmcChain log sigs y pert us S t)
        rw [ihl] at hp
        exact hp
      · exact ⟨ihl, ihn, ihs⟩

/-- Witness for `mcmc_state_invariant`. -/
theorem mcmc_state_invariant_witness :
    (mcmcChain (fun _ => 0) [] [] (fun _ _ => 0) (fun _ => 0) 1 0).length = 1 ∧
      (∀ v ∈ mcmcChain (fun _ => 0) [] [] (fun _ _ => 0) (fun _ => 0) 1 0, 0 ≤ v) ∧
      ((mcmcChain (fun _ => 0) [] [] (fun _ _ => 0) (fun _ => 0) 1 0).sum = 1 ∨
        mcmcChain (fun _ => 0) [] [] (fun _ _ => 0) (fun _ => 0) 1 0 = List.replicate 1 0) :=
  mcmc_state_invariant (fun _ => 0) [] [] (fun _ _ => 0) (fun _ => 0) 1 0 (le_refl 1)

/-- C8 (amended): when `estimate_jaccard` succeeds, two empty sketches give 1
only when `scaled` and `num_hashes` additionally match exactly (otherwise 0 —
in particular for two compatible empty bottom-k sketches with different
`num_hashes`), and exactly one empty sketch gives 0. -/
theorem estimateJaccard_empty_cases (s o : Signature) (q : ℚ)
    (h : Signature.estimateJaccard s o = some q) :
    ((s.hashes = [] ∧ o.hashes = []) →
        q = if s.scaled = o.scaled ∧ s.numHashes = o.numHashes then 1 else 0) ∧
    (((s.hashes = [] ∧ o.hashes ≠ []) ∨ (s.hashes ≠ [] ∧ o.hashes = [])) → q = 0) := by
  have halg : s.algorithm = o.algorithm := by
    by_contra hne
    simp [Signature.estimateJaccard, hne] at h
  have hbody : Signature.estimateJaccardBody s o = some q := by
    unfold Signature.estimateJaccard at h
    split_ifs at h <;> simp_all
  constructor
  · rintro ⟨h1, h2⟩
    unfold Signature.estimateJaccardBody at hbody
    simp only [Signature.isEmptySig, h1, h2, halg, List.isEmpty_nil, true_and,
      and_true, true_or, if_true] at hbody
    split_ifs at hbody with hc
    · simp only [Option.some.injEq] at hbody
      rw [if_pos hc]
      exact hbody.symm
    · simp only [Option.some.injEq] at hbody
      rw [if_neg hc]
      exact hbody.symm
  · intro hone
    unfold Signature.estimateJaccardBody at hbody
    rcases hone with ⟨h1, h2⟩ | ⟨h1, h2⟩ <;>
      simp_all [Signature.isEmptySig, List.isEmpty_eq_true]

/-- Witness for `estimateJaccard_empty_cases`. -/
theorem estimateJaccard_empty_cases_witness :
    (0 : ℚ) = if (0 : Nat) = 0 ∧ (5 : Nat) = 7 then 1 else 0 :=
  (estimateJaccard_empty_cases ⟨"minhash", [], 5, 0⟩ ⟨"minhash", [], 7, 0⟩ 0
    (by decide)).1 ⟨rfl, rfl⟩

/-- C9 (counterexample): QC is not idempotent on passing reads.  With
parameters (min_avg_quality 0, min_length 2, trim_quality 10,
max_n_percent 50), the read `"ANNA"` (bytes `[65,78,78,65]`, 50% N) with
quality bytes `[38,48,48,38]` (Phred scores `[5,15,15,5]`) passes QC and is
trimmed to `"NN"` with quality slice `[48,48]`; re-applying QC to the
trimmed read discards it, because its N-content is now 100% > 50%. -/
theorem qc_idempotence_cex :
    applyQCWithQual ⟨0, 2, 10, 50⟩ [65, 78, 78, 65] [38, 48, 48, 38] =
        some ([78, 78], [48, 48]) ∧
      applyQualityControl ⟨0, 2, 10, 50⟩ [65, 78, 78, 65] (some [38, 48, 48, 38]) =
        some [78, 78] ∧
      applyQualityControl ⟨0, 2, 10, 50⟩ [78, 78] (some [48, 48]) = none := by
  refine ⟨?_, ?_, ?_⟩ <;>
    norm_num [applyQCWithQual, applyQualityControl, isNBase, List.filter,
      List.findIdx?, List.findIdx?_cons, List.range, List.range_succ,
      List.find?, List.map]

/-! ### Machinery for the bottom-k heap characterization (C1) -/

/-- Helper: sorting is invariant under permutation of the input. -/
theorem insertionSort_congr {l1 l2 : List Nat} (h : l1.Perm l2) :
    List.insertionSort (· ≤ ·) l1 = List.insertionSort (· ≤ ·) l2 :=
  List.eq_of_perm_of_sorted
    ((List.perm_insertionSort _ l1).trans (h.trans (List.perm_insertionSort _ l2).symm))
    (List.sorted_insertionSort _ l1) (List.sorted_insertionSort _ l2)

/-- Helper: `minNSorted` is invariant under permutation of the input. -/
theorem minNSorted_congr {n : Nat} {l1 l2 : List Nat} (h : l1.Perm l2) :
    minNSorted n l1 = minNSorted n l2 := by
  unfold minNSorted
  rw [insertionSort_congr h]

/-- Helper: the maximum (as computed by the heap peek) of a non-empty list is
one of its elements. -/
theorem foldr_max_mem : ∀ (s : List Nat), s ≠ [] → s.foldr max 0 ∈ s := by
  intro s
  induction s with
  | nil => intro h; exact absurd rfl h
  | cons a t ih =>
      intro _
      by_cases ht : t = []
      · subst ht
        simp
      · rcases max_choice a (t.foldr max 0) with h | h
        · simp [List.foldr_cons, h]
        · simp only [List.foldr_cons, h]
          exact List.mem_cons_of_mem a (ih ht)

/-- Helper: every element of a list is at most its heap maximum. -/
theorem le_foldr_max : ∀ (s : List Nat), ∀ a ∈ s, a ≤ s.foldr max 0 := by
  intro s
  induction s with
  | nil => simp
  | cons b t ih =>
      intro a ha
      rcases List.mem_cons.mp ha with rfl | ha
      · exact le_max_left _ _
      · exact (ih a ha).trans (le_max_right _ _)

/-- Helper: one heap step keeps the heap size within the capacity. -/
theorem heapStep_length {N : Nat} {s : List Nat} (hs : s.length ≤ N) (h : Nat) :
    (heapStep N s h).length ≤ N := by
  unfold heapStep
  split_ifs with h1 h2
  · simpa using h1
  · have hne : s ≠ [] := by
      rintro rfl
      simp at h2
    have hmem : s.foldr max 0 ∈ s := foldr_max_mem s hne
    have hlen := List.length_erase_of_mem hmem
    have hpos := List.length_pos_of_mem hmem
    simp only [List.length_cons, hlen]
    omega
  · exact hs

/-- Helper: the whole heap fold keeps the heap size within the capacity. -/
theorem foldl_heapStep_length {N : Nat} :
    ∀ (hs : List Nat) (s : List Nat), s.length ≤ N →
      (hs.foldl (heapStep N) s).length ≤ N := by
  intro hs
  induction hs with
  | nil => intro s h; exact h
  | cons h t ih => intro s hls; exact ih _ (heapStep_length hls h)

/-- Helper: prepending `x` to a sorted list whose elements are all at least
`x` and which contains at least `n` elements `≤ x` (hence equal to `x`) does
not change the first `n` elements. -/
theorem take_cons_eq_of_count {x : Nat} :
    ∀ (n : Nat) (l : List Nat), l.Sorted (· ≤ ·) → (∀ e ∈ l, x ≤ e) →
      n ≤ l.countP (fun b => decide (b ≤ x)) → (x :: l).take n = l.take n := by
  intro n
  induction n with
  | zero => intro l _ _ _; simp
  | succ n ih =>
      intro l hsort hge hcount
      rcases l with _ | ⟨c, t⟩
      · simp at hcount
      · have hcpos : 0 < (c :: t).countP (fun b => decide (b ≤ x)) := by omega
        rcases List.countP_pos_iff.mp hcpos with ⟨b, hb, hbx⟩
        have hcb : c ≤ b := by
          rcases List.mem_cons.mp hb with hbc | hb2
          · exact hbc.ge
          · exact (List.pairwise_cons.mp hsort).1 b hb2
        have hcx : c = x :=
          le_antisymm (hcb.trans (by simpa using hbx)) (hge c (by simp))
        subst hcx
        have hcnt : (c :: t).countP (fun b => decide (b ≤ c)) =
            t.countP (fun b => decide (b ≤ c)) + 1 :=
          List.countP_cons_of_pos _ _ (by simp)
        have ht := ih t (List.pairwise_cons.mp hsort).2
          (fun e he => hge e (List.mem_cons_of_mem _ he)) (by omega)
        simp only [List.take_succ_cons]
        rw [ht]

/-- Helper: inserting `x` in order into a sorted list that already contains
at least `n` elements `≤ x` does not change the first `n` elements. -/
theorem take_orderedInsert_of_count {x : Nat} :
    ∀ (L : List Nat) (n : Nat), L.Sorted (· ≤ ·) →
      n ≤ L.countP (fun b => decide (b ≤ x)) →
      (List.orderedInsert (· ≤ ·) x L).take n = L.take n := by
  intro L
  induction L with
  | nil =>
      intro n _ hc
      simp only [List.countP_nil, Nat.le_zero] at hc
      subst hc
      simp
  | cons c t ih =>
      intro n hsort hc
      by_cases hxc : x ≤ c
      · simp only [List.orderedInsert, if_pos hxc]
        exact take_cons_eq_of_count n (c :: t) hsort
          (fun e he => hxc.trans (by
            rcases List.mem_cons.mp he with hec | he2
            · exact hec.ge
            · exact (List.pairwise_cons.mp hsort).1 e he2)) hc
      · simp only [List.orderedInsert, if_neg hxc]
        rcases n with _ | n
        · simp
        · have hcx : decide (c ≤ x) = true := by
            simp [le_of_lt (not_le.mp hxc)]
          have hcnt : (c :: t).countP (fun b => decide (b ≤ x)) =
              t.countP (fun b => decide (b ≤ x)) + 1 :=
            List.countP_cons_of_pos _ _ hcx
          have ht := ih n (List.pairwise_cons.mp hsort).2 (by omega)
          simp only [List.take_succ_cons]
          rw [ht]

/-- Helper: prepending an element `x` to a list that already contains at
least `n` elements `≤ x` does not change the `n` smallest elements. -/
theorem minNSorted_cons_of_count {n : Nat} {x : Nat} {l : List Nat}
    (hc : n ≤ l.countP (fun b => decide (b ≤ x))) :
    minNSorted n (x :: l) = minNSorted n l := by
  unfold minNSorted
  have hins : List.insertionSort (· ≤ ·) (x :: l) =
      List.orderedInsert (· ≤ ·) x (List.insertionSort (· ≤ ·) l) := rfl
  rw [hins]
  exact take_orderedInsert_of_count _ n (List.sorted_insertionSort _ l)
    (by rw [List.Perm.countP_eq _ (List.perm_insertionSort _ l)]; exact hc)

/-- Helper: one heap step commutes with taking the `N` smallest of the
processed multiset: the element evicted by a full heap (its maximum) can
never be among the `N` smallest of anything that still contains the `N`
elements left in the heap. -/
theorem minNSorted_heapStep {N : Nat} {s : List Nat} (hs : s.length ≤ N)
    (h : Nat) (rest : List Nat) :
    minNSorted N (heapStep N s h ++ rest) = minNSorted N (h :: (s ++ rest)) := by
  unfold heapStep
  split_ifs with h1 h2
  · rfl
  · have hlen : s.length = N := le_antisymm hs (not_lt.mp h1)
    have hne : s ≠ [] := by
      rintro rfl
      simp at h2
    have hmem : s.foldr max 0 ∈ s := foldr_max_mem s hne
    have hperm : (h :: (s ++ rest)).Perm
        ((s.foldr max 0) :: ((h :: s.erase (s.foldr max 0)) ++ rest)) := by
      have h1p : (s ++ rest).Perm ((s.foldr max 0 :: s.erase (s.foldr max 0)) ++ rest) :=
        (List.perm_cons_erase hmem).append_right rest
      exact (h1p.cons h).trans (List.Perm.swap _ _ _)
    rw [minNSorted_congr hperm]
    symm
    apply minNSorted_cons_of_count
    have hall : ∀ e ∈ h :: s.erase (s.foldr max 0), e ≤ s.foldr max 0 := by
      intro e he
      rcases List.mem_cons.mp he with rfl | he2
      · exact le_of_lt h2
      · exact le_foldr_max s e (List.mem_of_mem_erase he2)
    have hcnt : ((h :: s.erase (s.foldr max 0))).countP
        (fun b => decide (b ≤ s.foldr max 0)) = (h :: s.erase (s.foldr max 0)).length := by
      rw [List.countP_eq_length]
      intro a ha
      simpa using hall a ha
    have hlene : (s.erase (s.foldr max 0)).length = s.length - 1 :=
      List.length_erase_of_mem hmem
    have hpos := List.length_pos_of_mem hmem
    rw [List.countP_append, hcnt]
    simp only [List.length_cons, hlene]
    omega
  · have hlen : s.length = N := le_antisymm hs (not_lt.mp h1)
    symm
    apply minNSorted_cons_of_count
    have hcnt : s.countP (fun b => decide (b ≤ h)) = s.length := by
      rw [List.countP_eq_length]
      intro a ha
      have : a ≤ s.foldr max 0 := le_foldr_max s a ha
      simpa using this.trans (not_lt.mp h2)
    rw [List.countP_append, hcnt]
    omega

/-- Helper: the heap fold computes the `N` smallest elements (with
multiplicity) of the heap contents plus the ingested stream. -/
theorem minNSorted_foldl_heapStep {N : Nat} :
    ∀ (hs : List Nat) (s : List Nat), s.length ≤ N →
      minNSorted N (hs.foldl (heapStep N) s) = minNSorted N (s ++ hs) := by
  intro hs
  induction hs with
  | nil => intro s _; simp
  | cons h t ih =>
      intro s hlen
      rw [List.foldl_cons, ih _ (heapStep_length hlen h), minNSorted_heapStep hlen h t]
      exact minNSorted_congr List.perm_middle.symm

/-- C1 (amended): the bottom-k heap branch of `KmerSignature::add_sequence`
stores the `min(N, |H|)` smallest hashes of the ingested multiset counted
WITH multiplicity (the first `N` entries of the ascending sort of previous
contents plus stream), sorted ascending — duplicates included, as the
counterexample forces; while the sort/dedup/take path of
`MinHashSketcher::sketch_sequence` stores exactly the `min(N, |distinct H|)`
smallest distinct values (the first `N` of the ascending sort of the
deduplicated stream), sorted, duplicate-free, each drawn from the input. -/
theorem minhashAdd_bottomk_multiset (N : Nat) (cur hs : List Nat)
    (hcur : cur.length ≤ N) :
    minhashAdd N cur hs = minNSorted N (cur ++ hs) ∧
      minhashSketchHashes N hs = minNSorted N hs.dedup ∧
      (minhashSketchHashes N hs).Sorted (· ≤ ·) ∧
      (minhashSketchHashes N hs).Nodup ∧
      (minhashSketchHashes N hs).length = min N hs.dedup.length ∧
      (∀ x, x ∈ minhashSketchHashes N hs → x ∈ hs) := by
  refine ⟨?_, ?_, ?_, ?_, ?_, ?_⟩
  · unfold minhashAdd
    have hflen : (hs.foldl (heapStep N) cur).length ≤ N :=
      foldl_heapStep_length hs cur hcur
    have hslen : (List.insertionSort (· ≤ ·) (hs.foldl (heapStep N) cur)).length ≤ N := by
      rw [(List.perm_insertionSort _ _).length_eq]
      exact hflen
    rw [show List.insertionSort (· ≤ ·) (hs.foldl (heapStep N) cur) =
        minNSorted N (hs.foldl (heapStep N) cur) from
      (List.take_of_length_le hslen).symm]
    exact minNSorted_foldl_heapStep hs cur hcur
  · unfold minhashSketchHashes minNSorted
    rw [show (List.insertionSort (· ≤ ·) hs).dedup =
        List.insertionSort (· ≤ ·) hs.dedup from
      List.eq_of_perm_of_sorted
        (((List.perm_insertionSort (· ≤ ·) hs).dedup).trans
          (List.perm_insertionSort (· ≤ ·) hs.dedup).symm)
        (List.Pairwise.sublist (List.dedup_sublist _)
          (List.sorted_insertionSort _ hs))
        (List.sorted_insertionSort _ _)]
  · exact List.Pairwise.sublist (List.take_sublist _ _)
      (List.Pairwise.sublist (List.dedup_sublist _) (List.sorted_insertionSort _ hs))
  · exact List.Nodup.sublist (List.take_sublist _ _) (List.nodup_dedup _)
  · unfold minhashSketchHashes
    rw [List.length_take, ((List.perm_insertionSort _ hs).dedup).length_eq]
  · intro x hx
    have h1 : x ∈ (List.insertionSort (· ≤ ·) hs).dedup := List.take_subset _ _ hx
    have h2 : x ∈ List.insertionSort (· ≤ ·) hs := List.mem_dedup.mp h1
    exact (List.perm_insertionSort _ hs).mem_iff.mp h2

/-- Witness for `minhashAdd_bottomk_multiset`. -/
theorem minhashAdd_bottomk_multiset_witness :
    minhashAdd 2 [] [10, 5, 20, 15] = minNSorted 2 ([] ++ [10, 5, 20, 15]) ∧
      minhashSketchHashes 2 [10, 5, 20, 15] =
        minNSorted 2 ([10, 5, 20, 15] : List Nat).dedup ∧
      (minhashSketchHashes 2 [10, 5, 20, 15]).Sorted (· ≤ ·) ∧
      (minhashSketchHashes 2 [10, 5, 20, 15]).Nodup ∧
      (minhashSketchHashes 2 [10, 5, 20, 15]).length =
        min 2 ([10, 5, 20, 15] : List Nat).dedup.length ∧
      (∀ x, x ∈ minhashSketchHashes 2 [10, 5, 20, 15] → x ∈ [10, 5, 20, 15]) :=
  minhashAdd_bottomk_multiset 2 [] [10, 5, 20, 15] (by decide)

/-- Helper: closed form of the `weighted_similarity` accumulation loop — the
numerator collects `w·(jaccard or 0)` over all pairs and the denominator
collects every weight, compatible or not. -/
theorem wsimStep_foldl :
    ∀ (ps : List ((KmerSignature × KmerSignature) × ℚ)) (n d : ℚ),
      ps.foldl wsimStep (n, d) =
        (n + (ps.map fun p => p.2 * ((p.1.1.jaccardSimilarity p.1.2).getD 0)).sum,
          d + (ps.map Prod.snd).sum) := by
  intro ps
  induction ps with
  | nil => intro n d; simp
  | cons p ps ih =>
      intro n d
      rcases hj : p.1.1.jaccardSimilarity p.1.2 with _ | sim <;>
        · simp only [List.foldl_cons, wsimStep, hj, List.map_cons, List.sum_cons, ih,
            Option.getD_some, Option.getD_none, Prod.mk.injEq]
          constructor <;> ring

/-- C2 (amended): `weighted_similarity` treats an incompatible aligned pair
as contributing similarity 0 while its weight still enters the denominator:
with matching explicit weights the result is
`Some((Σ wᵢ·(Jᵢ or 0)) / Σ wᵢ)` over ALL pairs (or `Some 0` when the weights
sum to 0) — so with every pair incompatible the result is `Some 0`, not
undefined — and the default-weight call equals the call with explicit equal
weights `1/L`. -/
theorem weightedSimilarity_characterization (a b : MultiResolutionSignature)
    (w : List ℚ) (hlen : a.levels.length = b.levels.length)
    (hne : a.levels ≠ []) (hw : w.length = a.levels.length) :
    (a.weightedSimilarity b (some w) =
      if w.sum = 0 then some 0
      else some ((((a.levels.zip b.levels).zip w).map
          fun p => p.2 * ((p.1.1.jaccardSimilarity p.1.2).getD 0)).sum / w.sum)) ∧
    a.weightedSimilarity b none =
      a.weightedSimilarity b (some (List.replicate a.levels.length
        ((1 : ℚ) / (a.levels.length : ℚ)))) := by
  have hzip : (a.levels.zip b.levels).length = a.levels.length := by
    rw [List.length_zip, hlen, min_self]
  have hsnd : ((a.levels.zip b.levels).zip w).map Prod.snd = w :=
    List.map_snd_zip _ _ (by rw [hzip, hw])
  have hempty : a.levels.isEmpty = false := by
    simpa [List.isEmpty_eq_true] using hne
  have hcond : ¬ (a.levels.length ≠ b.levels.length ∨ a.levels.isEmpty = true) := by
    simp [hlen, hempty]
  constructor
  · unfold MultiResolutionSignature.weightedSimilarity
      MultiResolutionSignature.weightedSimilarityLoop
    rw [if_neg hcond]
    simp only [hw, ne_eq, not_true_eq_false, if_false, wsimStep_foldl, zero_add, hsnd]
  · unfold MultiResolutionSignature.weightedSimilarity
    rw [if_neg hcond, if_neg hcond]
    have hlen0 : a.levels.length ≠ 0 := by
      simpa [List.length_eq_zero] using hne
    dsimp only
    simp [hlen0, List.length_replicate]

/-- Witness for `weightedSimilarity_characterization`. -/
theorem weightedSimilarity_characterization_witness :
    (MultiResolutionSignature.weightedSimilarity
        ⟨"a", [], [⟨⟨"minhash", [5], 1, 0⟩, 21, "DNA"⟩]⟩
        ⟨"b", [], [⟨⟨"minhash", [5], 1, 0⟩, 31, "DNA"⟩]⟩ (some [2]) =
      if ([2] : List ℚ).sum = 0 then some 0
      else some ((((([⟨⟨"minhash", [5], 1, 0⟩, 21, "DNA"⟩] : List KmerSignature).zip
            ([⟨⟨"minhash", [5], 1, 0⟩, 31, "DNA"⟩] : List KmerSignature)).zip [2]).map
          (fun p => p.2 * ((p.1.1.jaccardSimilarity p.1.2).getD 0))).sum /
          (([2] : List ℚ).sum))) ∧
    MultiResolutionSignature.weightedSimilarity
        ⟨"a", [], [⟨⟨"minhash", [5], 1, 0⟩, 21, "DNA"⟩]⟩
        ⟨"b", [], [⟨⟨"minhash", [5], 1, 0⟩, 31, "DNA"⟩]⟩ none =
      MultiResolutionSignature.weightedSimilarity
        ⟨"a", [], [⟨⟨"minhash", [5], 1, 0⟩, 21, "DNA"⟩]⟩
        ⟨"b", [], [⟨⟨"minhash", [5], 1, 0⟩, 31, "DNA"⟩]⟩
        (some (List.replicate 1 ((1 : ℚ) / ((1 : Nat) : ℚ)))) :=
  weightedSimilarity_characterization
    ⟨"a", [], [⟨⟨"minhash", [5], 1, 0⟩, 21, "DNA"⟩]⟩
    ⟨"b", [], [⟨⟨"minhash", [5], 1, 0⟩, 31, "DNA"⟩]⟩ [2] rfl (by simp) rfl

/-- Helper: membership in the result of one scaled `add_sequence` call. -/
theorem mem_scaledAdd {S : Nat} {c hs : List Nat} {h : Nat} :
    h ∈ scaledAdd S c hs ↔ h ∈ c ∨ (h ∈ hs ∧ h < U64MAX / S) := by
  simp [scaledAdd, List.mem_dedup, (List.perm_insertionSort _ _).mem_iff,
    List.mem_append, List.mem_filter]

/-- Helper: one scaled `add_sequence` call always leaves the stored vector
sorted and duplicate-free. -/
theorem scaledAdd_sorted_nodup (S : Nat) (c hs : List Nat) :
    (scaledAdd S c hs).Sorted (· ≤ ·) ∧ (scaledAdd S c hs).Nodup :=
  ⟨List.Pairwise.sublist (List.dedup_sublist _) (List.sorted_insertionSort _ _),
    List.nodup_dedup _⟩

/-- Helper: membership in the stored vector after a sequence of scaled
`add_sequence` calls. -/
theorem mem_foldl_scaledAdd {S : Nat} :
    ∀ (calls : List (List Nat)) (c : List Nat) (h : Nat),
      h ∈ calls.foldl (fun acc hs => scaledAdd S acc hs) c ↔
        h ∈ c ∨ (h ∈ calls.flatten ∧ h < U64MAX / S) := by
  intro calls
  induction calls with
  | nil => intro c h; simp
  | cons hs rest ih =>
      intro c h
      rw [List.foldl_cons, ih, mem_scaledAdd]
      simp only [List.flatten_cons, List.mem_append]
      tauto

/-- Helper: the stored vector stays sorted and duplicate-free across a
sequence of scaled `add_sequence` calls. -/
theorem foldl_scaledAdd_sorted_nodup {S : Nat} :
    ∀ (calls : List (List Nat)) (c : List Nat), c.Sorted (· ≤ ·) → c.Nodup →
      (calls.foldl (fun acc hs => scaledAdd S acc hs) c).Sorted (· ≤ ·) ∧
        (calls.foldl (fun acc hs => scaledAdd S acc hs) c).Nodup := by
  intro calls
  induction calls with
  | nil => intro c hc1 hc2; exact ⟨hc1, hc2⟩
  | cons hs rest ih =>
      intro c _ _
      rw [List.foldl_cons]
      exact ih _ (scaledAdd_sorted_nodup S c hs).1 (scaledAdd_sorted_nodup S c hs).2

/-- C6: scaled-sketch membership.  Starting from an empty sketch and
ingesting any multisets of hashes through the scaled branch of
`KmerSignature::add_sequence` (possibly over several calls), a hash is
stored iff it occurs in the input and is below `⌊u64::MAX / S⌋`, and the
stored vector is sorted ascending with no duplicates; the same holds for a
single `AdaptiveSketcher::sketch_sequence` call. -/
theorem scaled_sketch_membership (S : Nat) (hS : 0 < S) (calls : List (List Nat)) :
    ((calls.foldl (fun acc hs => scaledAdd S acc hs) []).Sorted (· ≤ ·) ∧
      (calls.foldl (fun acc hs => scaledAdd S acc hs) []).Nodup ∧
      ∀ h, h ∈ calls.foldl (fun acc hs => scaledAdd S acc hs) [] ↔
        h ∈ calls.flatten ∧ h < U64MAX / S) ∧
    ∀ hs : List Nat, (adaptiveSketchHashes S hs).Sorted (· ≤ ·) ∧
      (adaptiveSketchHashes S hs).Nodup ∧
      ∀ h, h ∈ adaptiveSketchHashes S hs ↔ h ∈ hs ∧ h < U64MAX / S := by
  refine ⟨⟨(foldl_scaledAdd_sorted_nodup calls [] (by simp) (by simp)).1,
    (foldl_scaledAdd_sorted_nodup calls [] (by simp) (by simp)).2, ?_⟩, ?_⟩
  · intro h
    rw [mem_foldl_scaledAdd]
    simp
  · intro hs
    refine ⟨List.Pairwise.sublist (List.dedup_sublist _) (List.sorted_insertionSort _ _),
      List.nodup_dedup _, ?_⟩
    intro h
    simp [adaptiveSketchHashes, List.mem_dedup,
      (List.perm_insertionSort _ _).mem_iff, List.mem_filter]

/-- Witness for `scaled_sketch_membership`. -/
theorem scaled_sketch_membership_witness :
    (([[1, 2, 2, U64MAX/4 - 1, U64MAX/4],
        [U64MAX/4 + 1, U64MAX, 1]].foldl
          (fun acc hs => scaledAdd 4 acc hs) []).Sorted (· ≤ ·) ∧
      ([[1, 2, 2, U64MAX/4 - 1, U64MAX/4],
        [U64MAX/4 + 1, U64MAX, 1]].foldl
          (fun acc hs => scaledAdd 4 acc hs) []).Nodup ∧
      ∀ h, h ∈ [[1, 2, 2, U64MAX/4 - 1, U64MAX/4],
          [U64MAX/4 + 1, U64MAX, 1]].foldl (fun acc hs => scaledAdd 4 acc hs) [] ↔
        h ∈ ([[1, 2, 2, U64MAX/4 - 1, U64MAX/4],
          [U64MAX/4 + 1, U64MAX, 1]] : List (List Nat)).flatten ∧ h < U64MAX / 4) ∧
    ∀ hs : List Nat, (adaptiveSketchHashes 4 hs).Sorted (· ≤ ·) ∧
      (adaptiveSketchHashes 4 hs).Nodup ∧
      ∀ h, h ∈ adaptiveSketchHashes 4 hs ↔ h ∈ hs ∧ h < U64MAX / 4 :=
  scaled_sketch_membership 4 (by norm_num)
    [[1, 2, 2, U64MAX/4 - 1, U64MAX/4], [U64MAX/4 + 1, U64MAX, 1]]

/-- Helper: the fallback loop of `classify` under the default thresholds
equals its closed form `specFallback`. -/
theorem fallbackLoop_eq_specFallback (m : ℚ) :
    fallbackLoop defaultThresholds 9 .Species m = specFallback m := by
  simp only [fallbackLoop, defaultThresholds, TaxonomicLevel.parent, specFallback,
    Option.getD_some, reduceCtorEq, if_false]
  split_ifs <;> first
    | (exfalso; linarith)
    | (rw [Prod.mk.injEq]; exact ⟨rfl, by ring⟩)

/-- C3 (amended): closed form of the fallback classification against a
single reference under default thresholds.  When the micro similarity is
below the Strain threshold 0.65 and the meso similarity below the
StrainGroup threshold 0.70 (and the reference was selected, i.e. its overall
weighted similarity is positive), the returned level and confidence are
`specFallback` of the macro similarity `m`: starting at Species, 0.05 is
added per parent step and the walk stops at the first rank whose threshold
the boosted value meets or at Domain — so the confidence is a boosted value,
not the claim's clamped maximum similarity, and the level is generally finer
than the coarsest lineage rank. -/
theorem classify_fallback_characterization (m mi sg wv : ℚ) (nm : String)
    (lin : List String) (hmi : mi < 13/20) (hsg : sg < 7/10) (hw : 0 < wv) :
    (classify defaultThresholds 100 [⟨nm, lin⟩] [(⟨m, sg, mi⟩, wv)]).map
        (fun c => (c.level, c.confidence)) = Except.ok (specFallback m) := by
  unfold classify findBestMatch
  norm_num [List.enum, List.enumFrom, hw, defaultThresholds]
  rw [if_pos hmi, if_pos hsg, fallbackLoop_eq_specFallback]
  simp [buildClassification, Except.map]

/-- Witness for `classify_fallback_characterization`. -/
theorem classify_fallback_characterization_witness :
    (classify defaultThresholds 100 [⟨"r", ["Bacteria"]⟩]
        [(⟨7/10, 0, 0⟩, 1)]).map (fun c => (c.level, c.confidence)) =
      Except.ok (specFallback (7/10)) :=
  classify_fallback_characterization (7/10) 0 0 1 "r" ["Bacteria"]
    (by norm_num) (by norm_num) (by norm_num)

/-- Helper: the `getD` at the last position is `getLastD`. -/
theorem getD_length_sub_one {l : List Nat} :
    l.getD (l.length - 1) 0 = l.getLastD 0 := by
  rw [List.getD_eq_get?, List.getLastD_eq_getLast?, List.getLast?_eq_get?]

/-- Helper: on a read whose quality vector has the right length, is
non-empty, meets the minimum length, and whose first and last quality scores
are at least `trim_quality`, QC performs no trimming: it returns the read
unchanged when the N-content and average-quality checks pass and discards it
otherwise. -/
theorem qc_pass_characterization (p : QualityControlParams) (r q : List Nat)
    (hlen : q.length = r.length) (hq : q ≠ []) (hmin : p.minLength ≤ r.length)
    (hhead : p.trimQuality ≤ q.headD 0 - 33)
    (hlast : p.trimQuality ≤ q.getLastD 0 - 33) :
    applyQualityControl p r (some q) =
      if p.maxNPercent < 100 * ((r.filter isNBase).length : ℚ) / (r.length : ℚ) ∨
          ((q.map fun x => ((x - 33 : Nat) : ℚ)).sum) / (q.length : ℚ) < p.minAvgQuality
        then none else some r := by
  simp only [applyQualityControl]
  rw [if_neg (not_lt.mpr hmin)]
  by_cases hN : p.maxNPercent < 100 * ((r.filter isNBase).length : ℚ) / (r.length : ℚ)
  · rw [if_pos hN, if_pos (Or.inl hN)]
  · rw [if_neg hN]
    rw [if_neg (by simp [hlen])]
    rw [if_neg (by simp [List.isEmpty_eq_true, hq])]
    by_cases hA : ((q.map fun x => ((x - 33 : Nat) : ℚ)).sum) / (q.length : ℚ) < p.minAvgQuality
    · rw [if_pos hA, if_pos (Or.inr hA)]
    · rw [if_neg hA, if_neg (by tauto)]
      obtain ⟨c, t, rfl⟩ := List.exists_cons_of_ne_nil hq
      have hheadc : p.trimQuality ≤ c - 33 := by simpa using hhead
      rw [List.findIdx?_cons, if_pos (by simpa using hheadc)]
      have hrange : (List.range (c :: t).length).reverse =
          t.length :: (List.range (t.length + 1 - 1)).reverse := by
        simp [List.range_succ]
      rw [hrange]
      have hlastq : p.trimQuality ≤ (c :: t).getD t.length 0 - 33 := by
        have := getD_length_sub_one (l := c :: t)
        simp only [List.length_cons, Nat.add_sub_cancel] at this
        rw [this]
        exact hlast
      have hget : (c :: t).getD t.length 0 = (c :: t)[t.length] := by
        rw [List.getD_eq_get?, List.get?_eq_getElem?,
          List.getElem?_eq_getElem (by simp)]
        rfl
      have hlastq2 : p.trimQuality ≤ (c :: t)[t.length] - 33 := hget ▸ hlastq
      dsimp only
      rw [List.find?_cons_of_pos _ (by simp [hlastq2])]
      dsimp only
      have hlen2 : t.length + 1 = r.length := by
        simpa using hlen
      rw [if_neg (by omega)]
      rw [List.drop_zero]
      simp only [Nat.sub_zero]
      rw [show t.length + 1 = r.length from hlen2, List.take_length]

/-- C9 (amended): a second QC pass over the trimmed read `r2` with its
trimmed quality slice `q2` never trims further — it returns `some r2`
exactly when `r2` still passes the N-content check and `q2` still passes the
average-quality check, and `none` otherwise.  (The first pass guarantees the
length check and that the boundary qualities of `q2` are at least
`trim_quality`, so the second trim scan is the identity; but the N
percentage can rise above `max_n_percent` and the mean quality can fall
below `min_avg_quality` on the trimmed read, as the counterexample shows.) -/
theorem qc_second_pass (p : QualityControlParams) (seq q r2 q2 : List Nat)
    (h : applyQCWithQual p seq q = some (r2, q2)) :
    applyQualityControl p r2 (some q2) =
      if p.maxNPercent < 100 * ((r2.filter isNBase).length : ℚ) / (r2.length : ℚ) ∨
          ((q2.map fun x => ((x - 33 : Nat) : ℚ)).sum) / (q2.length : ℚ) < p.minAvgQuality
        then none else some r2 := by
  simp only [applyQCWithQual] at h
  split_ifs at h with h1 h2 h3 h4 h5
  rcases hts : q.findIdx? (fun x => decide (p.trimQuality ≤ x - 33)) with _ | ts
  · rw [hts] at h
    exact Option.noConfusion h
  rw [hts] at h
  dsimp only at h
  rcases hfi : (List.range q.length).reverse.find?
      (fun i => decide (ts ≤ i) && decide (p.trimQuality ≤ q.getD i 0 - 33)) with _ | li
  · rw [hfi] at h
    exact Option.noConfusion h
  rw [hfi] at h
  dsimp only at h
  split_ifs at h with hdisc
  simp only [Option.some.injEq, Prod.mk.injEq] at h
  obtain ⟨hr2, hq2⟩ := h
  subst hr2
  subst hq2
  push_neg at hdisc
  have hqs : q.length = seq.length := not_ne_iff.mp h3
  have hts2 := List.findIdx?_eq_some_iff_findIdx_eq.mp hts
  have htslen : ts < q.length := hts2.1
  have htsq : p.trimQuality ≤ q[ts] - 33 := by
    have hw : q.findIdx (fun x => decide (p.trimQuality ≤ x - 33)) < q.length := by
      rw [hts2.2]; exact htslen
    have hval := List.findIdx_getElem (w := hw)
    have hopt : decide (p.trimQuality ≤
        (q[q.findIdx (fun x => decide (p.trimQuality ≤ x - 33))]?).getD 0 - 33) = true := by
      rw [List.getElem?_eq_getElem hw]
      simpa using hval
    rw [hts2.2, List.getElem?_eq_getElem htslen] at hopt
    simpa using hopt
  have hmemli := List.mem_of_find?_eq_some hfi
  have hli : li < q.length := by
    simpa [List.mem_reverse, List.mem_range] using hmemli
  have hp := List.find?_some hfi
  rw [Bool.and_eq_true] at hp
  have htsli : ts ≤ li := by simpa using hp.1
  have hliq : p.trimQuality ≤ q.getD li 0 - 33 := by simpa using hp.2
  have hq2len : ((q.drop ts).take (li + 1 - ts)).length = li + 1 - ts := by
    rw [List.length_take, List.length_drop]
    omega
  have hr2len : ((seq.drop ts).take (li + 1 - ts)).length = li + 1 - ts := by
    rw [List.length_take, List.length_drop]
    omega
  have hlen12 : ((q.drop ts).take (li + 1 - ts)).length =
      ((seq.drop ts).take (li + 1 - ts)).length := by
    rw [hq2len, hr2len]
  have hq2ne : (q.drop ts).take (li + 1 - ts) ≠ [] := by
    apply List.ne_nil_of_length_pos
    rw [hq2len]
    omega
  have hminr : p.minLength ≤ ((seq.drop ts).take (li + 1 - ts)).length := by
    rw [hr2len]
    omega
  have hq2get0 : ((q.drop ts).take (li + 1 - ts)).get? 0 = some q[ts] := by
    rw [List.get?_take (by omega), List.get?_drop, Nat.add_zero,
      List.get?_eq_getElem?, List.getElem?_eq_getElem htslen]
  have hhead2 : p.trimQuality ≤ ((q.drop ts).take (li + 1 - ts)).headD 0 - 33 := by
    rw [List.headD_eq_head?, List.head?_eq_getElem?, ← List.get?_eq_getElem?, hq2get0]
    exact htsq
  have hq2getlast : ((q.drop ts).take (li + 1 - ts)).get? (li - ts) = q.get? li := by
    rw [List.get?_take (by omega), List.get?_drop]
    congr 1
    omega
  have hlast2 : p.trimQuality ≤ ((q.drop ts).take (li + 1 - ts)).getLastD 0 - 33 := by
    rw [← getD_length_sub_one, hq2len,
      show li + 1 - ts - 1 = li - ts from by omega,
      List.getD_eq_get?, hq2getlast, ← List.getD_eq_get?]
    exact hliq
  exact qc_pass_characterization p _ _ hlen12 hq2ne hminr hhead2 hlast2

/-- Witness for `qc_second_pass`. -/
theorem qc_second_pass_witness :
    applyQualityControl ⟨0, 2, 10, 50⟩ [78, 78] (some [48, 48]) =
      if (50 : ℚ) < 100 * ((([78, 78] : List Nat).filter isNBase).length : ℚ) /
          ((([78, 78] : List Nat)).length : ℚ) ∨
          ((([48, 48] : List Nat).map fun x => ((x - 33 : Nat) : ℚ)).sum) /
            ((([48, 48] : List Nat)).length : ℚ) < (0 : ℚ)
        then none else some [78, 78] :=
  qc_second_pass ⟨0, 2, 10, 50⟩ [65, 78, 78, 65] [38, 48, 48, 38] [78, 78] [48, 48]
    (by norm_num [applyQCWithQual, isNBase, List.filter, List.findIdx?,
      List.findIdx?_cons, List.range, List.range_succ, List.find?, List.map])

end StrainAhsp
